import Mathlib

/-!
Shallow embedding of the basket-analysis pipeline of `src/server/main.py`
(`analyze_etf`, lines 44-117).  The upload is modelled after CSV parsing,
header normalisation and numeric coercion have succeeded: a list of
`(name, weight)` rows with rational weights.  Prices and weights are
rationals (exact arithmetic stands in for Python floats).
-/

/-- Python `str.strip()` on the character list: drop whitespace from both
ends (`main.py` line 59: `.str.strip()`). -/
def stripChars (cs : List Char) : List Char :=
  ((cs.dropWhile Char.isWhitespace).reverse.dropWhile Char.isWhitespace).reverse

/-- Cleaning of one `name` value (`main.py` line 59): trim surrounding
whitespace; the case of the value is untouched. -/
def stripName (s : String) : String := ⟨stripChars s.data⟩

/-- The upload rows after the name-cleaning step (line 59). -/
def cleanRows (rows : List (String × ℚ)) : List (String × ℚ) :=
  rows.map (fun r => (stripName r.1, r.2))

/-- Sum of the weights of the rows whose (cleaned) name equals `k` —
the per-group sum of `groupby("name")["weight"].sum()` (line 61). -/
def sumFor (l : List (String × ℚ)) (k : String) : ℚ :=
  ((l.filter (fun r => r.1 = k)).map Prod.snd).sum

/-- Distinct elements of a list of names.  `pandas.groupby` sorts the
group keys, so the pre-sort order of this dedup is immaterial. -/
def dedupKeys : List String → List String
  | [] => []
  | a :: l => if a ∈ dedupKeys l then dedupKeys l else a :: dedupKeys l

/-- Insert a string into a (ascending-sorted) list of strings. -/
def insertStr (a : String) : List String → List String
  | [] => [a]
  | b :: l => if b < a then b :: insertStr a l else a :: b :: l

/-- Ascending sort of a list of strings, as `pandas.groupby` sorts its
group keys (codepoint-lexicographic, like Python `str` comparison). -/
def sortKeys : List String → List String
  | [] => []
  | a :: l => insertStr a (sortKeys l)

/-- The group keys produced by `groupby("name")` (line 61): the distinct
cleaned names, in ascending sorted order. -/
def aggKeys (rows : List (String × ℚ)) : List String :=
  sortKeys (dedupKeys ((cleanRows rows).map Prod.fst))

/-- Line 61: `weights_df.groupby("name", as_index=False)["weight"].sum()` —
one row per distinct cleaned name, holding the summed weight. -/
def aggregate (rows : List (String × ℚ)) : List (String × ℚ) :=
  (aggKeys rows).map (fun k => (k, sumFor (cleanRows rows) k))

/-- Line 63: `total_weight = weights_df["weight"].sum()` (taken after the
groupby, i.e. the sum of the aggregated weights). -/
def totalWeight (rows : List (String × ℚ)) : ℚ :=
  ((aggregate rows).map Prod.snd).sum

/-- Line 67: divide every aggregated weight by the total. -/
def normalizeWeights (rows : List (String × ℚ)) : List (String × ℚ) :=
  (aggregate rows).map (fun r => (r.1, r.2 / totalWeight rows))

/-- Series lookup by label (`subset_weights[ticker]`, line 98).  In the
pipeline it is only applied to labels present in the list. -/
def lookupW (l : List (String × ℚ)) (t : String) : ℚ :=
  match l.find? (fun r => r.1 = t) with
  | some r => r.2
  | none => 0

/-- The price table loaded at startup (lines 23-31): dates are the sorted
index (kept as `"YYYY-MM-DD"` strings), one column per ticker. -/
structure PriceTable where
  dates : List String
  tickers : List String
  price : String → String → ℚ

/-- Line 75: `weights_df.index.intersection(prices_df.columns)` — the
aggregated (sorted) names restricted to those that are price columns,
keeping the index order.  Exact, case-sensitive string comparison. -/
def relevantTickers (pt : PriceTable) (rows : List (String × ℚ)) : List String :=
  ((aggregate rows).map Prod.fst).filter (fun t => t ∈ pt.tickers)

/-- Floor of a rational, computed on its reduced fraction. -/
def ratFloor (q : ℚ) : ℤ := Int.fdiv q.num q.den

/-- Round half to even, Python's rounding mode for `round()`. -/
def rnd (q : ℚ) : ℤ :=
  let f := ratFloor q
  if q - f < 1/2 then f
  else if 1/2 < q - f then f + 1
  else if f % 2 = 0 then f else f + 1

/-- Python `round(x, n)` on exact rationals. -/
def roundTo (n : ℕ) (q : ℚ) : ℚ :=
  (rnd (q * 10 ^ n) : ℚ) / 10 ^ n

/-- One holdings-table row (lines 101-106). -/
structure HoldingRow where
  ticker : String
  weight : ℚ
  price : ℚ
  value : ℚ
deriving DecidableEq, Repr

/-- One history point (lines 111-114). -/
structure HistoryPoint where
  date : String
  price : ℚ
deriving DecidableEq, Repr

/-- The response record (lines 109-117). -/
structure AnalysisResult where
  latest_date : String
  history : List HistoryPoint
  holdings : List HoldingRow
  top5 : List HoldingRow
deriving DecidableEq, Repr

/-- The client-visible bad-request errors raised by the pipeline after
parsing/coercion (lines 64-65 and 76-80). -/
inductive Err where
  | invalidWeights
  | noMatch
deriving DecidableEq, Repr

instance {ε α : Type} [DecidableEq ε] [DecidableEq α] : DecidableEq (Except ε α) :=
  fun a b =>
    match a, b with
    | .error x, .error y =>
        if h : x = y then .isTrue (by rw [h]) else .isFalse (by simp [h])
    | .error _, .ok _ => .isFalse (by simp)
    | .ok _, .error _ => .isFalse (by simp)
    | .ok x, .ok y =>
        if h : x = y then .isTrue (by rw [h]) else .isFalse (by simp [h])

/-- Build one holdings row (lines 96-106): `value = price * weight`,
weight rounded to 4 decimals, price and value to 2 decimals. -/
def mkHolding (pt : PriceTable) (w : List (String × ℚ)) (latestD t : String) :
    HoldingRow :=
  let price := pt.price latestD t
  let weight := lookupW w t
  { ticker := t
    weight := roundTo 4 weight
    price := roundTo 2 price
    value := roundTo 2 (price * weight) }

/-- Stable insertion into a value-descending list: the new row goes after
every strictly greater row and before the first row of value ≤ its own. -/
def insertDesc (a : HoldingRow) : List HoldingRow → List HoldingRow
  | [] => [a]
  | b :: l => if a.value < b.value then b :: insertDesc a l else a :: b :: l

/-- Line 107: `sorted(holdings, key=lambda x: x["value"], reverse=True)` —
a stable descending sort on the (rounded) `value` field. -/
def sortHoldings : List HoldingRow → List HoldingRow
  | [] => []
  | a :: l => insertDesc a (sortHoldings l)

/-- The basket value of one date (line 86, `subset_prices.dot(subset_weights)`):
sum over the matched tickers of price times normalized weight. -/
def basketValue (pt : PriceTable) (w : List (String × ℚ)) (rts : List String)
    (d : String) : ℚ :=
  (rts.map (fun t => pt.price d t * lookupW w t)).sum

/-- The response assembled on the success path (lines 84-117): full
history over all dates, holdings built from the last row of prices,
sorted descending by value, and `top5` the first five sorted rows. -/
def buildResult (pt : PriceTable) (rows : List (String × ℚ)) : AnalysisResult :=
  let w := normalizeWeights rows
  let rts := relevantTickers pt rows
  let latestD := pt.dates.getLastD ""
  let holdingsSorted := sortHoldings (rts.map (mkHolding pt w latestD))
  { latest_date := latestD
    history := pt.dates.map (fun d => ⟨d, roundTo 2 (basketValue pt w rts d)⟩)
    holdings := holdingsSorted
    top5 := holdingsSorted.take 5 }

/-- The pipeline of `analyze_etf` from the cleaned upload rows on
(lines 59-117).  The input `rows` stands for an upload whose CSV parsing,
header normalisation and numeric weight coercion succeeded. -/
def analyze (pt : PriceTable) (rows : List (String × ℚ)) :
    Except Err AnalysisResult :=
  if totalWeight rows ≤ 0 then .error .invalidWeights
  else if relevantTickers pt rows = [] then .error .noMatch
  else .ok (buildResult pt rows)

-- Concrete scenario of spec §8: three dates, tickers AAA and BBB.
/-- Example price table: dates 2024-01-01..03, `AAA` prices 10,11,12 and
`BBB` prices 20,19,18. -/
def ptEx : PriceTable where
  dates := ["2024-01-01", "2024-01-02", "2024-01-03"]
  tickers := ["AAA", "BBB"]
  price := fun d t =>
    if t = "AAA" then (if d = "2024-01-01" then 10 else if d = "2024-01-02" then 11 else 12)
    else (if d = "2024-01-01" then 20 else if d = "2024-01-02" then 19 else 18)

/-- Example upload: `AAA,1` and `BBB,1`. -/
def rowsEx : List (String × ℚ) := [("AAA", 1), ("BBB", 1)]

/-- Expected response for `ptEx`/`rowsEx`. -/
def resEx : AnalysisResult where
  latest_date := "2024-01-03"
  history := [⟨"2024-01-01", 15⟩, ⟨"2024-01-02", 15⟩, ⟨"2024-01-03", 15⟩]
  holdings := [⟨"BBB", 1/2, 18, 9⟩, ⟨"AAA", 1/2, 12, 6⟩]
  top5 := [⟨"BBB", 1/2, 18, 9⟩, ⟨"AAA", 1/2, 12, 6⟩]

/-- Upload with an unmatched name carrying negative weight: `AAA,2` and
`ZZZ,-1` (`ZZZ` is not a price column of `ptEx`). -/
def rowsNegUnmatched : List (String × ℚ) := [("AAA", 2), ("ZZZ", -1)]

/-- Price table for the rounded-tie scenario: a single date, `AAA` at
1.001 and `BBB` at 1.004. -/
def ptTie : PriceTable where
  dates := ["2024-01-05"]
  tickers := ["AAA", "BBB"]
  price := fun _ t => if t = "AAA" then 1001/1000 else 1004/1000

/-- Upload `AAA,1` and `BBB,1` for the rounded-tie scenario: the exact
values 0.5005 and 0.502 differ but both round to 0.50. -/
def rowsTie : List (String × ℚ) := [("AAA", 1), ("BBB", 1)]

/-- Upload `AAA,1` and `ZZZ,1`: half the weight on an unmatched name. -/
def rowsUnm : List (String × ℚ) := [("AAA", 1), ("ZZZ", 1)]

/-- Expected response for `ptEx`/`rowsUnm`: only `AAA` remains, with its
normalized weight 0.5 (the unmatched `ZZZ` still entered the total). -/
def resUnm : AnalysisResult where
  latest_date := "2024-01-03"
  history := [⟨"2024-01-01", 5⟩, ⟨"2024-01-02", 11/2⟩, ⟨"2024-01-03", 6⟩]
  holdings := [⟨"AAA", 1/2, 12, 6⟩]
  top5 := [⟨"AAA", 1/2, 12, 6⟩]

/-- Expected response for `ptTie`/`rowsTie`: both values round to 0.50,
prices to 1.00, and the rows keep the intersection order AAA, BBB. -/
def resTie : AnalysisResult where
  latest_date := "2024-01-05"
  history := [⟨"2024-01-05", 1⟩]
  holdings := [⟨"AAA", 1/2, 1, 1/2⟩, ⟨"BBB", 1/2, 1, 1/2⟩]
  top5 := [⟨"AAA", 1/2, 1, 1/2⟩, ⟨"BBB", 1/2, 1, 1/2⟩]

-- Helper lemmas about the stable descending sort of holdings.

theorem insertDesc_perm (a : HoldingRow) (l : List HoldingRow) :
    List.Perm (insertDesc a l) (a :: l) := by
  induction l with
  | nil => exact List.Perm.refl _
  | cons b l ih =>
      simp only [insertDesc]
      split
      · exact (ih.cons b).trans (List.Perm.swap a b l)
      · exact List.Perm.refl _

theorem sortHoldings_perm (l : List HoldingRow) : List.Perm (sortHoldings l) l := by
  induction l with
  | nil => exact List.Perm.refl _
  | cons a l ih => exact (insertDesc_perm a (sortHoldings l)).trans (ih.cons a)

theorem pairwise_insertDesc (a : HoldingRow) (l : List HoldingRow)
    (h : l.Pairwise (fun x y => y.value ≤ x.value)) :
    (insertDesc a l).Pairwise (fun x y => y.value ≤ x.value) := by
  induction l with
  | nil => simp [insertDesc]
  | cons b l ih =>
      rcases List.pairwise_cons.1 h with ⟨hb, hl⟩
      simp only [insertDesc]
      split
      · rename_i hab
        refine List.pairwise_cons.2 ⟨?_, ih hl⟩
        intro c hc
        rcases List.mem_cons.1 ((insertDesc_perm a l).mem_iff.1 hc) with rfl | hcl
        · exact le_of_lt hab
        · exact hb c hcl
      · rename_i hab
        refine List.pairwise_cons.2 ⟨?_, h⟩
        intro c hc
        rcases List.mem_cons.1 hc with rfl | hcl
        · exact not_lt.1 hab
        · exact le_trans (hb c hcl) (not_lt.1 hab)

theorem sortHoldings_pairwise (l : List HoldingRow) :
    (sortHoldings l).Pairwise (fun x y => y.value ≤ x.value) := by
  induction l with
  | nil => simp [sortHoldings]
  | cons a l ih => exact pairwise_insertDesc a (sortHoldings l) ih

theorem filter_insertDesc (a : HoldingRow) (l : List HoldingRow) (v : ℚ) :
    (insertDesc a l).filter (fun h => h.value = v) =
      if a.value = v then a :: l.filter (fun h => h.value = v)
      else l.filter (fun h => h.value = v) := by
  induction l with
  | nil =>
      simp only [insertDesc]
      by_cases hav : a.value = v <;> simp [List.filter_cons, hav]
  | cons b l ih =>
      simp only [insertDesc]
      split
      · rename_i hab
        by_cases hbv : b.value = v
        · have hav : ¬ a.value = v := by rw [← hbv]; exact ne_of_lt hab
          simp [List.filter_cons, hbv, hav, ih]
        · simp [List.filter_cons, hbv, ih]
      · by_cases hav : a.value = v <;> simp [List.filter_cons, hav]

theorem sortHoldings_filter (l : List HoldingRow) (v : ℚ) :
    (sortHoldings l).filter (fun h => h.value = v) =
      l.filter (fun h => h.value = v) := by
  induction l with
  | nil => rfl
  | cons a l ih =>
      simp only [sortHoldings, filter_insertDesc, ih, List.filter_cons]
      by_cases hav : a.value = v <;> simp [hav]

-- Helper lemmas about the sorted, deduplicated group keys.

theorem insertStr_perm (a : String) (l : List String) :
    List.Perm (insertStr a l) (a :: l) := by
  induction l with
  | nil => exact List.Perm.refl _
  | cons b l ih =>
      simp only [insertStr]
      split
      · exact (ih.cons b).trans (List.Perm.swap a b l)
      · exact List.Perm.refl _

theorem sortKeys_perm (l : List String) : List.Perm (sortKeys l) l := by
  induction l with
  | nil => exact List.Perm.refl _
  | cons a l ih => exact (insertStr_perm a (sortKeys l)).trans (ih.cons a)

theorem mem_dedupKeys (l : List String) : ∀ a, a ∈ dedupKeys l ↔ a ∈ l := by
  induction l with
  | nil => simp [dedupKeys]
  | cons b l ih =>
      intro a
      simp only [dedupKeys]
      split
      · rename_i hb
        rw [ih a, List.mem_cons]
        constructor
        · exact Or.inr
        · rintro (rfl | h)
          · exact (ih a).1 hb
          · exact h
      · rw [List.mem_cons, ih a, List.mem_cons]

theorem nodup_dedupKeys (l : List String) : (dedupKeys l).Nodup := by
  induction l with
  | nil => simp [dedupKeys]
  | cons b l ih =>
      simp only [dedupKeys]
      split
      · exact ih
      · rename_i hb
        exact List.nodup_cons.2 ⟨hb, ih⟩

theorem aggKeys_nodup (rows : List (String × ℚ)) : (aggKeys rows).Nodup :=
  (sortKeys_perm _).nodup_iff.2 (nodup_dedupKeys _)

theorem mem_aggKeys (rows : List (String × ℚ)) (k : String) :
    k ∈ aggKeys rows ↔ ∃ r ∈ rows, stripName r.1 = k := by
  rw [aggKeys, (sortKeys_perm _).mem_iff, mem_dedupKeys]
  simp [cleanRows, eq_comm]

-- Lookup and summation helpers.

theorem find?_map_key {α : Type} (f : String → α) (ks : List String) (k : String)
    (hk : k ∈ ks) :
    (ks.map (fun a => (a, f a))).find? (fun r => r.1 = k) = some (k, f k) := by
  induction ks with
  | nil => cases hk
  | cons a ks ih =>
      by_cases h : a = k
      · subst h; simp
      · have hk2 : k ∈ ks := by
          rcases List.mem_cons.1 hk with rfl | h2
          · exact absurd rfl h
          · exact h2
        simp [h, ih hk2]

theorem lookupW_normalizeWeights (rows : List (String × ℚ)) (k : String)
    (hk : k ∈ aggKeys rows) :
    lookupW (normalizeWeights rows) k =
      sumFor (cleanRows rows) k / totalWeight rows := by
  unfold lookupW normalizeWeights aggregate
  rw [List.map_map]
  have := find?_map_key
    (fun a => sumFor (cleanRows rows) a / totalWeight rows) (aggKeys rows) k hk
  rw [show ((fun r : String × ℚ => (r.1, r.2 / totalWeight rows)) ∘
      fun k => (k, sumFor (cleanRows rows) k)) =
      (fun a => (a, sumFor (cleanRows rows) a / totalWeight rows)) from rfl, this]

theorem sum_map_div {α : Type} (l : List α) (f : α → ℚ) (c : ℚ) :
    (l.map (fun x => f x / c)).sum = (l.map f).sum / c := by
  induction l with
  | nil => simp
  | cons a l ih => simp [ih, add_div]

theorem aggregate_keys (rows : List (String × ℚ)) :
    (aggregate rows).map Prod.fst = aggKeys rows := by
  simp [aggregate, List.map_map, Function.comp_def]

theorem sumFor_cleanRows (rows : List (String × ℚ)) (k : String) :
    sumFor (cleanRows rows) k =
      ((rows.filter (fun r => stripName r.1 = k)).map Prod.snd).sum := by
  induction rows with
  | nil => rfl
  | cons r rows ih =>
      simp only [cleanRows, List.map_cons, sumFor, List.filter_cons] at *
      by_cases h : stripName r.1 = k <;> simp [h] at * <;> simp [ih]

theorem getLastD_of_ne_nil {α : Type} (l : List α) (d : α) (h : l ≠ []) :
    l.getLastD d = l.getLast h := by
  cases l with
  | nil => exact absurd rfl h
  | cons a l => simp [List.getLastD_eq_getLast?, List.getLast?_eq_getLast _ h]

-- Inversion of the pipeline's control flow.

theorem analyze_ok_iff (pt : PriceTable) (rows : List (String × ℚ))
    (res : AnalysisResult) :
    analyze pt rows = .ok res ↔
      0 < totalWeight rows ∧ relevantTickers pt rows ≠ [] ∧
        res = buildResult pt rows := by
  unfold analyze
  split
  · rename_i h
    simp [not_lt.2 h]
  · rename_i h
    split
    · rename_i h2
      simp [h2]
    · rename_i h2
      simp [not_le.1 h, h2, eq_comm]

-- Claim theorems.

/-- C1 (counterexample): the claim says rows whose names agree after
trimming AND lower-casing aggregate to one entry, and that
`[("AAA",0.3), ("aaa ",0.3)]` yields a single key of weight 0.6.  The
code only trims the values (line 59 strips but never lower-cases), so
this input keeps two distinct keys `"AAA"` and `"aaa"`, each 0.3. -/
theorem C1_aggregation_counterexample :
    aggregate [("AAA", (3:ℚ)/10), ("aaa ", (3:ℚ)/10)] =
      [("AAA", 3/10), ("aaa", 3/10)] ∧
    (aggregate [("AAA", (3:ℚ)/10), ("aaa ", (3:ℚ)/10)]).length ≠ 1 := by
  with_unfolding_all decide

/-- C1 (amended): rows whose names become equal after trimming
surrounding whitespace only (case-sensitive, no lower-casing) are
aggregated into a single entry whose weight is the sum of their
weights: the aggregated keys are distinct, and every aggregated entry
`(k, w)` has `w` equal to the sum of the weights of exactly the rows
whose trimmed name is `k`, with `k` actually coming from some row. -/
theorem C1_aggregation_amended (rows : List (String × ℚ)) :
    ((aggregate rows).map Prod.fst).Nodup ∧
    ∀ k w, (k, w) ∈ aggregate rows →
      w = ((rows.filter (fun r => stripName r.1 = k)).map Prod.snd).sum ∧
      ∃ r ∈ rows, stripName r.1 = k := by
  constructor
  · rw [aggregate_keys]
    exact aggKeys_nodup rows
  · intro k w hkw
    obtain ⟨k2, hk2, heq⟩ := List.mem_map.1 hkw
    rw [Prod.mk.injEq] at heq
    obtain ⟨hk, hw⟩ := heq
    subst hk
    subst hw
    exact ⟨sumFor_cleanRows rows k2, (mem_aggKeys rows k2).1 hk2⟩

/-- C1 (witness for the amended theorem), at the concrete input of the
claim: the entry `("aaa", 0.3)` of the aggregation of
`[("AAA",0.3), ("aaa ",0.3)]` sums exactly the second row. -/
theorem C1_aggregation_amended_witness :
    (("aaa", (3:ℚ)/10) ∈ aggregate [("AAA", (3:ℚ)/10), ("aaa ", (3:ℚ)/10)]) ∧
    ((3:ℚ)/10 =
      (([("AAA", (3:ℚ)/10), ("aaa ", (3:ℚ)/10)].filter
        (fun r => stripName r.1 = "aaa")).map Prod.snd).sum ∧
      ∃ r ∈ [("AAA", (3:ℚ)/10), ("aaa ", (3:ℚ)/10)], stripName r.1 = "aaa") :=
  ⟨by with_unfolding_all decide,
   (C1_aggregation_amended [("AAA", (3:ℚ)/10), ("aaa ", (3:ℚ)/10)]).2 "aaa" (3/10)
     (by with_unfolding_all decide)⟩

/-- C2: cleaning a name value only removes whitespace at the two ends —
the cleaned value is a verbatim contiguous substring of the original,
so letter case is never altered — and a ticker is matched exactly when
it equals (case-sensitively) some trimmed uploaded name and is a price
column. -/
theorem C2_trim_and_exact_match :
    (∀ s : String, ∃ pre post,
      pre.all Char.isWhitespace ∧ post.all Char.isWhitespace ∧
      s.data = pre ++ (stripName s).data ++ post) ∧
    ∀ (pt : PriceTable) (rows : List (String × ℚ)) (t : String),
      t ∈ relevantTickers pt rows ↔
        (∃ r ∈ rows, stripName r.1 = t) ∧ t ∈ pt.tickers := by
  constructor
  · intro s
    refine ⟨s.data.takeWhile Char.isWhitespace,
      ((s.data.dropWhile Char.isWhitespace).reverse.takeWhile Char.isWhitespace).reverse,
      ?_, ?_, ?_⟩
    · exact List.all_eq_true.2 (fun x hx => List.mem_takeWhile_imp hx)
    · exact List.all_eq_true.2
        (fun x hx => List.mem_takeWhile_imp (List.mem_reverse.1 hx))
    · show s.data = _ ++ (stripChars s.data) ++ _
      unfold stripChars
      conv_lhs => rw [← List.takeWhile_append_dropWhile Char.isWhitespace s.data]
      rw [List.append_assoc]
      congr 1
      conv_lhs =>
        rw [← List.reverse_reverse (s.data.dropWhile Char.isWhitespace),
          ← List.takeWhile_append_dropWhile Char.isWhitespace
            (s.data.dropWhile Char.isWhitespace).reverse,
          List.reverse_append]
  · intro pt rows t
    rw [relevantTickers, aggregate_keys, List.mem_filter, mem_aggKeys]
    simp

/-- C4: when the aggregated total is strictly positive, dividing every
aggregated weight by it makes the weight vector sum to exactly 1 (exact
rational arithmetic). -/
theorem C4_normalized_sum (rows : List (String × ℚ))
    (h : 0 < totalWeight rows) :
    ((normalizeWeights rows).map Prod.snd).sum = 1 := by
  unfold normalizeWeights
  rw [List.map_map]
  rw [show (Prod.snd ∘ fun r : String × ℚ => (r.1, r.2 / totalWeight rows)) =
      (fun r : String × ℚ => r.2 / totalWeight rows) from rfl]
  rw [sum_map_div (aggregate rows) Prod.snd (totalWeight rows)]
  exact div_self (ne_of_gt h)

/-- C4 (witness): the upload `[("AAA",1), ("BBB",1)]` has total 2 > 0 and
its normalized weights sum to 1. -/
theorem C4_normalized_sum_witness :
    0 < totalWeight rowsEx ∧ ((normalizeWeights rowsEx).map Prod.snd).sum = 1 :=
  ⟨by with_unfolding_all decide, C4_normalized_sum rowsEx (by with_unfolding_all decide)⟩

/-- C7: on an upload that parsed with the required columns and numeric
weights (the domain of `analyze`'s row-list input), the pipeline stops
with `InvalidWeightsError` (HTTP 400, line 65) if and only if the
aggregated pre-normalization total is ≤ 0. -/
theorem C7_invalid_weights_iff (pt : PriceTable) (rows : List (String × ℚ)) :
    analyze pt rows = .error .invalidWeights ↔ totalWeight rows ≤ 0 := by
  unfold analyze
  split
  · rename_i h
    simp [h]
  · rename_i h
    split <;> simp [h]

/-- C7 (witness): the spec's rejection example `[("AAA",1),("BBB",-1)]`
sums to 0 and is rejected with `InvalidWeightsError`. -/
theorem C7_invalid_weights_witness :
    analyze ptEx [("AAA", (1:ℚ)), ("BBB", (-1:ℚ))] = .error .invalidWeights :=
  (C7_invalid_weights_iff ptEx [("AAA", (1:ℚ)), ("BBB", (-1:ℚ))]).mpr
    (by with_unfolding_all decide)

/-- C8: past the positive-total check, the pipeline stops with
`NoMatchError` (HTTP 400, lines 76-80) exactly when the intersection of
cleaned names with the price columns is empty. -/
theorem C8_no_match_iff (pt : PriceTable) (rows : List (String × ℚ))
    (h : 0 < totalWeight rows) :
    analyze pt rows = .error .noMatch ↔ relevantTickers pt rows = [] := by
  unfold analyze
  rw [if_neg (not_le.2 h)]
  split <;> rename_i h2 <;> simp [h2]

/-- C8 (witness): the upload `[("ZZZ",1)]` has positive total, matches no
price column of `ptEx`, and is rejected with `NoMatchError`. -/
theorem C8_no_match_witness :
    0 < totalWeight [("ZZZ", (1:ℚ))] ∧
    analyze ptEx [("ZZZ", (1:ℚ))] = .error .noMatch :=
  ⟨by with_unfolding_all decide,
   (C8_no_match_iff ptEx [("ZZZ", (1:ℚ))] (by with_unfolding_all decide)).mpr
     (by with_unfolding_all decide)⟩

/-- C3: when the price-store dates are strictly ascending, an accepted
upload's history has exactly one point per stored date, in ascending
date order, and the point of date `d` carries
`round2 (Σ over matched tickers of weight * price)`. -/
theorem C3_history_reconstruction (pt : PriceTable) (rows : List (String × ℚ))
    (res : AnalysisResult)
    (hasc : List.Chain' (· < ·) pt.dates)
    (h : analyze pt rows = .ok res) :
    res.history.map HistoryPoint.date = pt.dates ∧
    List.Chain' (· < ·) (res.history.map HistoryPoint.date) ∧
    res.history = pt.dates.map (fun d =>
      ⟨d, roundTo 2 (((relevantTickers pt rows).map
        (fun t => lookupW (normalizeWeights rows) t * pt.price d t)).sum)⟩) := by
  obtain ⟨-, -, hres⟩ := (analyze_ok_iff pt rows res).1 h
  subst hres
  have hmap : (buildResult pt rows).history.map HistoryPoint.date = pt.dates := by
    simp [buildResult, List.map_map, Function.comp_def]
  refine ⟨hmap, by rw [hmap]; exact hasc, ?_⟩
  simp only [buildResult, basketValue]
  refine List.map_congr_left (fun d hd => ?_)
  rw [HistoryPoint.mk.injEq]
  refine ⟨rfl, ?_⟩
  congr 1
  exact congrArg List.sum (List.map_congr_left (fun t ht =>
    mul_comm (pt.price d t) (lookupW (normalizeWeights rows) t)))

/-- C3 (witness): at the concrete scenario the dates are strictly
ascending, the upload is accepted, and the history dates are exactly the
stored dates. -/
theorem C3_history_reconstruction_witness :
    List.Chain' (· < ·) ptEx.dates ∧ analyze ptEx rowsEx = .ok resEx ∧
    resEx.history.map HistoryPoint.date = ptEx.dates := by
  have hasc : List.Chain' (· < ·) ptEx.dates := by
    show List.Chain' (· < ·) ["2024-01-01", "2024-01-02", "2024-01-03"]
    refine List.chain'_cons.2 ⟨by with_unfolding_all decide,
      List.chain'_cons.2 ⟨by with_unfolding_all decide, ?_⟩⟩
    exact List.chain'_singleton _
  exact ⟨hasc, by with_unfolding_all decide,
    (C3_history_reconstruction ptEx rowsEx resEx hasc
      (by with_unfolding_all decide)).1⟩

/-- C5: the accepted response's `latest_date` is the last (most recent)
stored date, and the holdings are, up to the descending sort, exactly
one row per matched ticker built from that date's prices with weight
rounded to 4 decimals, price and value (price times weight) to 2. -/
theorem C5_latest_snapshot (pt : PriceTable) (rows : List (String × ℚ))
    (res : AnalysisResult) (hne : pt.dates ≠ [])
    (h : analyze pt rows = .ok res) :
    res.latest_date = pt.dates.getLast hne ∧
    List.Perm res.holdings ((relevantTickers pt rows).map (fun t =>
      ⟨t, roundTo 4 (lookupW (normalizeWeights rows) t),
        roundTo 2 (pt.price (pt.dates.getLast hne) t),
        roundTo 2 (pt.price (pt.dates.getLast hne) t *
          lookupW (normalizeWeights rows) t)⟩)) := by
  obtain ⟨-, -, hres⟩ := (analyze_ok_iff pt rows res).1 h
  subst hres
  constructor
  · show pt.dates.getLastD "" = pt.dates.getLast hne
    exact getLastD_of_ne_nil pt.dates "" hne
  · show List.Perm (sortHoldings ((relevantTickers pt rows).map
      (mkHolding pt (normalizeWeights rows) (pt.dates.getLastD "")))) _
    rw [getLastD_of_ne_nil pt.dates "" hne]
    exact sortHoldings_perm _

/-- C5 (witness): at the concrete scenario the table is nonempty, the
upload is accepted, and `latest_date` is `2024-01-03`. -/
theorem C5_latest_snapshot_witness :
    ptEx.dates ≠ [] ∧ analyze ptEx rowsEx = .ok resEx ∧
    resEx.latest_date = "2024-01-03" := by
  refine ⟨by with_unfolding_all decide, by with_unfolding_all decide, ?_⟩
  rw [(C5_latest_snapshot ptEx rowsEx resEx (by with_unfolding_all decide)
    (by with_unfolding_all decide)).1]
  with_unfolding_all decide

/-- C6: the returned holdings are sorted descending by (rounded) value;
for every value the rows carrying it appear in the same order as in the
matched-ticker intersection (stable tie-break); and `top5` is exactly
the first `min 5 (number of holdings)` rows of the sorted list. -/
theorem C6_sorted_stable_top5 (pt : PriceTable) (rows : List (String × ℚ))
    (res : AnalysisResult) (h : analyze pt rows = .ok res) :
    res.holdings.Pairwise (fun a b => b.value ≤ a.value) ∧
    (∀ v : ℚ, res.holdings.filter (fun x => x.value = v) =
      ((relevantTickers pt rows).map
        (mkHolding pt (normalizeWeights rows) (pt.dates.getLastD ""))).filter
        (fun x => x.value = v)) ∧
    res.top5 = res.holdings.take 5 ∧
    res.top5.length = min 5 res.holdings.length := by
  obtain ⟨-, -, hres⟩ := (analyze_ok_iff pt rows res).1 h
  subst hres
  simp only [buildResult]
  exact ⟨sortHoldings_pairwise _, fun v => sortHoldings_filter _ v, by trivial,
    List.length_take 5 _⟩

/-- C6 (witness): at the concrete scenario the upload is accepted and
`top5` is the 2-element prefix of the sorted holdings. -/
theorem C6_sorted_stable_top5_witness :
    analyze ptEx rowsEx = .ok resEx ∧ resEx.top5 = resEx.holdings.take 5 ∧
    resEx.top5.length = min 5 resEx.holdings.length :=
  ⟨by with_unfolding_all decide,
   (C6_sorted_stable_top5 ptEx rowsEx resEx (by with_unfolding_all decide)).2.2⟩

/-- C9 (counterexample): the claim says the holdings weights sum to
strictly less than 1 whenever an unmatched name carries nonzero weight.
With `[("AAA",2), ("ZZZ",-1)]` against a table that only has `AAA`, the
unmatched `ZZZ` carries the nonzero weight -1, the upload is accepted,
and the holdings weights sum to 2, which is not less than 1. -/
theorem C9_unmatched_counterexample :
    (∃ r ∈ rowsNegUnmatched, stripName r.1 ∉ ptEx.tickers ∧ r.2 ≠ 0) ∧
    (analyze ptEx rowsNegUnmatched).map
      (fun r => (r.holdings.map (·.weight)).sum) = .ok 2 ∧
    ¬ ((2:ℚ) < 1) := by
  with_unfolding_all decide

/-- C9 (amended): on an accepted upload, unmatched names produce no
error and contribute no holding (every returned row's ticker is a
matched ticker), while normalization happens before restriction: the
matched normalized weights sum to (matched raw sum) / (total raw sum),
which is strictly below 1 when the unmatched names carry strictly
positive total weight. -/
theorem C9_unmatched_amended (pt : PriceTable) (rows : List (String × ℚ))
    (res : AnalysisResult) (h : analyze pt rows = .ok res) :
    (∀ x ∈ res.holdings, x.ticker ∈ relevantTickers pt rows) ∧
    ((relevantTickers pt rows).map
      (fun t => lookupW (normalizeWeights rows) t)).sum =
      ((relevantTickers pt rows).map (fun t => sumFor (cleanRows rows) t)).sum /
        totalWeight rows ∧
    (((relevantTickers pt rows).map (fun t => sumFor (cleanRows rows) t)).sum <
        totalWeight rows →
      ((relevantTickers pt rows).map
        (fun t => lookupW (normalizeWeights rows) t)).sum < 1) := by
  obtain ⟨hpos, -, hres⟩ := (analyze_ok_iff pt rows res).1 h
  have hsum : ((relevantTickers pt rows).map
      (fun t => lookupW (normalizeWeights rows) t)).sum =
      ((relevantTickers pt rows).map (fun t => sumFor (cleanRows rows) t)).sum /
        totalWeight rows := by
    rw [show ((relevantTickers pt rows).map
        (fun t => lookupW (normalizeWeights rows) t)) =
        ((relevantTickers pt rows).map
          (fun t => sumFor (cleanRows rows) t / totalWeight rows)) from
      List.map_congr_left (fun t ht => by
        refine lookupW_normalizeWeights rows t ?_
        have h2 := List.mem_filter.1 ht
        rw [aggregate_keys] at h2
        exact h2.1)]
    exact sum_map_div (relevantTickers pt rows) (fun t => sumFor (cleanRows rows) t)
      (totalWeight rows)
  refine ⟨?_, hsum, ?_⟩
  · subst hres
    intro x hx
    have hx2 := (sortHoldings_perm _).mem_iff.1 hx
    obtain ⟨t, ht, rfl⟩ := List.mem_map.1 hx2
    exact ht
  · intro hlt
    rw [hsum]
    exact (div_lt_one hpos).2 hlt

/-- C9 (witness for the amended theorem): with `[("AAA",1), ("ZZZ",1)]`
the matched raw sum 1 is below the total 2 and the matched normalized
weights sum to 1/2 < 1. -/
theorem C9_unmatched_amended_witness :
    analyze ptEx rowsUnm = .ok resUnm ∧
    ((relevantTickers ptEx rowsUnm).map
      (fun t => sumFor (cleanRows rowsUnm) t)).sum < totalWeight rowsUnm ∧
    ((relevantTickers ptEx rowsUnm).map
      (fun t => lookupW (normalizeWeights rowsUnm) t)).sum < 1 :=
  ⟨by with_unfolding_all decide, by with_unfolding_all decide,
   (C9_unmatched_amended ptEx rowsUnm resUnm (by with_unfolding_all decide)).2.2
     (by with_unfolding_all decide)⟩

/-- C10: the ranking compares the 2-decimal rounded values: two matched
tickers in intersection order whose exact values differ but whose
rounded values are equal keep the intersection order in the returned
holdings (rather than exact-value-descending order). -/
theorem C10_tie_intersection_order (pt : PriceTable) (rows : List (String × ℚ))
    (res : AnalysisResult) (t1 t2 : String)
    (h : analyze pt rows = .ok res)
    (hsub : List.Sublist [t1, t2] (relevantTickers pt rows))
    (_hexact : pt.price (pt.dates.getLastD "") t1 *
        lookupW (normalizeWeights rows) t1 ≠
      pt.price (pt.dates.getLastD "") t2 * lookupW (normalizeWeights rows) t2)
    (hround : (mkHolding pt (normalizeWeights rows) (pt.dates.getLastD "") t1).value =
      (mkHolding pt (normalizeWeights rows) (pt.dates.getLastD "") t2).value) :
    List.Sublist
      [mkHolding pt (normalizeWeights rows) (pt.dates.getLastD "") t1,
       mkHolding pt (normalizeWeights rows) (pt.dates.getLastD "") t2]
      res.holdings := by
  obtain ⟨-, -, hres⟩ := (analyze_ok_iff pt rows res).1 h
  subst hres
  show List.Sublist _ (sortHoldings ((relevantTickers pt rows).map
    (mkHolding pt (normalizeWeights rows) (pt.dates.getLastD ""))))
  have h1 := (hsub.map (mkHolding pt (normalizeWeights rows)
    (pt.dates.getLastD ""))).filter (fun x =>
      x.value = (mkHolding pt (normalizeWeights rows) (pt.dates.getLastD "") t1).value)
  rw [List.map_cons, List.map_cons, List.map_nil, List.filter_cons,
    List.filter_cons] at h1
  simp only [decide_eq_true_eq, if_pos rfl, if_pos hround.symm, List.filter_nil] at h1
  rw [← sortHoldings_filter] at h1
  exact h1.trans (List.filter_sublist _)

/-- C10 (witness): in the tie scenario the exact values 0.5005 and 0.502
differ, both round to 0.50, and the output keeps the intersection order
`AAA` before `BBB`. -/
theorem C10_tie_intersection_order_witness :
    analyze ptTie rowsTie = .ok resTie ∧
    ptTie.price (ptTie.dates.getLastD "") "AAA" *
        lookupW (normalizeWeights rowsTie) "AAA" ≠
      ptTie.price (ptTie.dates.getLastD "") "BBB" *
        lookupW (normalizeWeights rowsTie) "BBB" ∧
    List.Sublist
      [mkHolding ptTie (normalizeWeights rowsTie) (ptTie.dates.getLastD "") "AAA",
       mkHolding ptTie (normalizeWeights rowsTie) (ptTie.dates.getLastD "") "BBB"]
      resTie.holdings := by
  refine ⟨by with_unfolding_all decide, by with_unfolding_all decide, ?_⟩
  refine C10_tie_intersection_order ptTie rowsTie resTie "AAA" "BBB"
    (by with_unfolding_all decide) ?_ (by with_unfolding_all decide)
    (by with_unfolding_all decide)
  rw [show relevantTickers ptTie rowsTie = ["AAA", "BBB"] from
    by with_unfolding_all decide]
